import Mathlib

/-!
Verification development for the node-skeleton-cli scaffolding generator.

The definitions below are a shallow embedding of the generator script
(`bin/nsc`): its pure string transforms are translated to Lean functions on
`String` / `List Char`, its filesystem effects to an explicit event trace and
an explicit filesystem state, and its fallible directory listing to `Except`.
Machine-level caveats (ANSI color codes in log lines, stream flushing) are
outside the embedded behavior.
-/

namespace NSC

/-! ### Character-level helpers -/

/-- ASCII lowercase fold: maps `A`-`Z` to `a`-`z` and fixes every other
character.  This is what `String.prototype.toLowerCase` computes on the
ASCII-only strings the generator applies it to, and it is also the case
folding performed by a case-insensitive (non-unicode-mode) regular
expression over ASCII pattern characters. -/
def lowerChar (c : Char) : Char :=
  if 65 ≤ c.toNat ∧ c.toNat ≤ 90 then Char.ofNat (c.toNat + 32) else c

/-- Membership in the character class `[A-Za-z0-9.-]` of the first
`createAppName` regular expression. -/
def allowedChar (c : Char) : Bool :=
  (65 ≤ c.toNat && c.toNat ≤ 90) || (97 ≤ c.toNat && c.toNat ≤ 122) ||
    (48 ≤ c.toNat && c.toNat ≤ 57) || c == '.' || c == '-'

/-- Membership in the character class `[-_.]` of the second `createAppName`
regular expression. -/
def leadChar (c : Char) : Bool :=
  c == '-' || c == '_' || c == '.'

/-! ### Node `path.basename` (posix) -/

/-- Drop trailing `/` separators, as `path.posix.basename` does before
isolating the final segment. -/
def dropTrailingSlashes (l : List Char) : List Char :=
  (l.reverse.dropWhile (fun c => c == '/')).reverse

/-- Node `path.posix.basename`: drop trailing separators, then keep the
portion after the last remaining separator. -/
def basenameL (l : List Char) : List Char :=
  ((dropTrailingSlashes l).reverse.takeWhile (fun c => !(c == '/'))).reverse

/-! ### createAppName -/

/-- Global replacement performed by `.replace(/[^A-Za-z0-9.-]+/g, '-')`:
each maximal run of characters outside the class becomes a single `-`.
The recursion mirrors the regex engine: on meeting a character outside the
class it consumes the whole (maximal) run — `dropWhile` — and emits one
`-`. -/
def collapseRuns : List Char → List Char
  | [] => []
  | c :: l =>
    if allowedChar c then c :: collapseRuns l
    else '-' :: collapseRuns (l.dropWhile (fun d => !allowedChar d))
termination_by l => l.length
decreasing_by
  · simp
  · exact Nat.lt_succ_of_le ((l.dropWhile_sublist _).length_le)

/-- First half of `.replace(/^[-_.]+|-+$/g, '')`: the anchored alternative
`^[-_.]+` removes the leading run of `-`, `_`, `.` characters. -/
def stripLead (l : List Char) : List Char :=
  l.dropWhile leadChar

/-- Second half of `.replace(/^[-_.]+|-+$/g, '')`: the anchored alternative
`-+$` removes the trailing run of `-` characters.  (The two alternatives
never overlap on distinct matches: if the leading run does not already cover
the string, the trailing `-` run lies strictly inside the remainder, so the
global replace equals removing the leading run and then the trailing run.) -/
def stripTrailDash (l : List Char) : List Char :=
  (l.reverse.dropWhile (fun c => c == '-')).reverse

/-- Character-list core of `createAppName`. -/
def caList (l : List Char) : List Char :=
  (stripTrailDash (stripLead (collapseRuns (basenameL l)))).map lowerChar

/-- The generator's `createAppName`: `path.basename(pathName)
.replace(/[^A-Za-z0-9.-]+/g, '-').replace(/^[-_.]+|-+$/g, '').toLowerCase()`. -/
def createAppName (s : String) : String :=
  ⟨caList s.data⟩

/-! ### Spec-side restatement of the normalization algorithm -/

/-- Stated from the spec's words: replace every run of characters outside
`[A-Za-z0-9.-]` with a single `-`.  Formulated as a left-to-right scan that
remembers whether it is inside such a run (a structurally different
formulation from `collapseRuns`, to be compared with it). -/
def specCollapse (inRun : Bool) : List Char → List Char
  | [] => []
  | c :: l =>
    if allowedChar c then c :: specCollapse false l
    else if inRun then specCollapse true l
    else '-' :: specCollapse true l

/-- Stated from the spec's words: take the final path segment; replace every
run of characters outside `[A-Za-z0-9.-]` with a single `-`; strip leading
`-`, `_`, `.` characters and trailing `-` characters; lowercase the result. -/
def createAppNameSpec (s : String) : String :=
  ⟨(stripTrailDash (stripLead (specCollapse false (basenameL s.data)))).map lowerChar⟩

/-! ### Equivalence of the two collapse formulations -/

theorem specCollapse_true_eq (l : List Char) :
    specCollapse true l = specCollapse false (l.dropWhile (fun d => !allowedChar d)) := by
  induction l with
  | nil => rfl
  | cons c l ih =>
    by_cases h : allowedChar c
    · simp [specCollapse, h, List.dropWhile]
    · simp only [specCollapse, if_neg h, if_pos, ih, List.dropWhile]
      simp [h]

theorem collapseRuns_eq_specCollapse (l : List Char) :
    collapseRuns l = specCollapse false l := by
  induction l using collapseRuns.induct with
  | case1 => simp [collapseRuns, specCollapse]
  | case2 c l h ih =>
    simp [collapseRuns, specCollapse, h, ih]
  | case3 c l h ih =>
    simp only [collapseRuns, specCollapse, if_neg h, ih, ← specCollapse_true_eq]
    simp

/-! ### Facts about lowerChar -/

theorem char_eq_iff_toNat {a b : Char} : a = b ↔ a.toNat = b.toNat :=
  ⟨fun h => h ▸ rfl, fun h => Char.ext (UInt32.toNat.inj h)⟩

theorem toNat_lowerChar_of_upper {c : Char} (h1 : 65 ≤ c.toNat) (h2 : c.toNat ≤ 90) :
    (lowerChar c).toNat = c.toNat + 32 := by
  have hv : (c.toNat + 32).isValidChar := Or.inl (by omega)
  simp only [lowerChar, if_pos (And.intro h1 h2), Char.ofNat, dif_pos hv]
  rfl

theorem lowerChar_eq_self {c : Char} (h : ¬(65 ≤ c.toNat ∧ c.toNat ≤ 90)) :
    lowerChar c = c := by
  simp only [lowerChar, if_neg h]

/-- Every character is either fixed by `lowerChar` or is an uppercase letter
whose image is the code-point 32 later. -/
theorem lowerChar_cases (c : Char) :
    lowerChar c = c ∨
      (65 ≤ c.toNat ∧ c.toNat ≤ 90 ∧ (lowerChar c).toNat = c.toNat + 32) := by
  by_cases h : 65 ≤ c.toNat ∧ c.toNat ≤ 90
  · exact Or.inr ⟨h.1, h.2, toNat_lowerChar_of_upper h.1 h.2⟩
  · exact Or.inl (lowerChar_eq_self h)

theorem allowedChar_toNat (c : Char) :
    allowedChar c = true ↔
      (65 ≤ c.toNat ∧ c.toNat ≤ 90) ∨ (97 ≤ c.toNat ∧ c.toNat ≤ 122) ∨
        (48 ≤ c.toNat ∧ c.toNat ≤ 57) ∨ c.toNat = 46 ∨ c.toNat = 45 := by
  simp only [allowedChar, Bool.or_eq_true, Bool.and_eq_true, decide_eq_true_eq,
    beq_iff_eq, char_eq_iff_toNat]
  constructor
  · rintro ((((h | h) | h) | h) | h) <;> simp_all
  · rintro (h | h | h | h | h) <;> simp_all

theorem leadChar_toNat (c : Char) :
    leadChar c = true ↔ c.toNat = 45 ∨ c.toNat = 95 ∨ c.toNat = 46 := by
  simp only [leadChar, Bool.or_eq_true, beq_iff_eq, char_eq_iff_toNat]
  constructor
  · rintro ((h | h) | h) <;> simp_all
  · rintro (h | h | h) <;> simp_all

theorem allowedChar_lowerChar {c : Char} (h : allowedChar c = true) :
    allowedChar (lowerChar c) = true := by
  rcases lowerChar_cases c with heq | ⟨h1, h2, h3⟩
  · rwa [heq]
  · rw [allowedChar_toNat, h3]
    right; left; omega

theorem leadChar_lowerChar (c : Char) : leadChar (lowerChar c) = leadChar c := by
  rcases lowerChar_cases c with heq | ⟨h1, h2, h3⟩
  · rw [heq]
  · have hl : leadChar (lowerChar c) = false := by
      rw [Bool.eq_false_iff]
      intro hc
      rw [leadChar_toNat, h3] at hc
      omega
    have hr : leadChar c = false := by
      rw [Bool.eq_false_iff]
      intro hc
      rw [leadChar_toNat] at hc
      omega
    rw [hl, hr]

theorem dash_lowerChar (c : Char) : (lowerChar c == '-') = (c == '-') := by
  rcases lowerChar_cases c with heq | ⟨h1, h2, h3⟩
  · rw [heq]
  · have hl : (lowerChar c == '-') = false := by
      simp only [beq_eq_false_iff_ne, ne_eq, char_eq_iff_toNat, h3]
      show ¬(c.toNat + 32 = 45)
      omega
    have hr : (c == '-') = false := by
      simp only [beq_eq_false_iff_ne, ne_eq, char_eq_iff_toNat]
      show ¬(c.toNat = 45)
      omega
    rw [hl, hr]

theorem lowerChar_idem (c : Char) : lowerChar (lowerChar c) = lowerChar c := by
  rcases lowerChar_cases c with heq | ⟨h1, h2, h3⟩
  · rw [heq, heq]
  · apply lowerChar_eq_self
    rw [h3]
    omega

theorem allowedChar_ne_slash {c : Char} (h : allowedChar c = true) :
    (c == '/') = false := by
  rw [allowedChar_toNat] at h
  simp only [beq_eq_false_iff_ne, ne_eq, char_eq_iff_toNat]
  show ¬(c.toNat = 47)
  omega

/-! ### Membership facts for the normalization pipeline -/

theorem mem_collapseRuns_allowed {c : Char} :
    ∀ {l : List Char}, c ∈ collapseRuns l → allowedChar c = true := by
  intro l
  induction l using collapseRuns.induct with
  | case1 => intro h; simp [collapseRuns] at h
  | case2 a l h ih =>
    intro hm
    rw [collapseRuns, if_pos h] at hm
    rcases List.mem_cons.mp hm with rfl | hm
    · exact h
    · exact ih hm
  | case3 a l h ih =>
    intro hm
    rw [collapseRuns, if_neg h] at hm
    rcases List.mem_cons.mp hm with rfl | hm
    · decide
    · exact ih hm

theorem mem_stripLead {c : Char} {l : List Char} (h : c ∈ stripLead l) : c ∈ l :=
  (List.dropWhile_sublist _).subset h

theorem stripTrailDash_isPrefixOf (l : List Char) : stripTrailDash l <+: l := by
  have h := List.dropWhile_suffix (l := l.reverse) (fun c => c == '-')
  have h2 := (List.reverse_prefix).mpr h
  rwa [List.reverse_reverse] at h2

theorem mem_stripTrailDash {c : Char} {l : List Char} (h : c ∈ stripTrailDash l) :
    c ∈ l :=
  (stripTrailDash_isPrefixOf l).sublist.subset h

theorem mem_caList_allowed {c : Char} {l : List Char} (h : c ∈ caList l) :
    allowedChar c = true := by
  rcases List.mem_map.mp h with ⟨d, hd, rfl⟩
  exact allowedChar_lowerChar
    (mem_collapseRuns_allowed (mem_stripLead (mem_stripTrailDash hd)))

/-! ### Fixed-point lemmas: createAppName output is already normalized -/

theorem dropWhile_eq_self_of_head {p : Char → Bool} :
    ∀ {l : List Char}, (∀ c, l.head? = some c → p c = false) → l.dropWhile p = l
  | [], _ => rfl
  | c :: l, h => by simp [List.dropWhile_cons, h c rfl]

theorem dropWhile_eq_self_of_all {p : Char → Bool} :
    ∀ {l : List Char}, (∀ c ∈ l, p c = false) → l.dropWhile p = l
  | [], _ => rfl
  | c :: l, h => by simp [List.dropWhile_cons, h c (List.mem_cons_self c l)]

theorem takeWhile_eq_self_of_all {p : Char → Bool} :
    ∀ {l : List Char}, (∀ c ∈ l, p c = true) → l.takeWhile p = l
  | [], _ => rfl
  | c :: l, h => by
    simp only [List.takeWhile_cons, h c (List.mem_cons_self c l), if_pos]
    exact congrArg (c :: ·) (takeWhile_eq_self_of_all fun d hd => h d (List.mem_cons_of_mem c hd))

theorem basenameL_of_no_slash {l : List Char} (h : ∀ c ∈ l, (c == '/') = false) :
    basenameL l = l := by
  have h1 : dropTrailingSlashes l = l := by
    rw [dropTrailingSlashes,
      dropWhile_eq_self_of_all (fun c hc => h c (List.mem_reverse.mp hc)),
      List.reverse_reverse]
  rw [basenameL, h1,
    takeWhile_eq_self_of_all (fun c hc => by
      simp only [Bool.not_eq_true']
      exact h c (List.mem_reverse.mp hc)),
    List.reverse_reverse]

theorem collapseRuns_of_all_allowed :
    ∀ {l : List Char}, (∀ c ∈ l, allowedChar c = true) → collapseRuns l = l
  | [], _ => by rw [collapseRuns]
  | c :: l, h => by
    rw [collapseRuns, if_pos (h c (List.mem_cons_self c l))]
    exact congrArg (c :: ·)
      (collapseRuns_of_all_allowed fun d hd => h d (List.mem_cons_of_mem c hd))

theorem head_caList_not_lead {l : List Char} {c : Char}
    (h : (caList l).head? = some c) : leadChar c = false := by
  rw [caList, List.head?_map] at h
  rcases Option.map_eq_some'.mp h with ⟨d, hd, rfl⟩
  rcases stripTrailDash_isPrefixOf (stripLead (collapseRuns (basenameL l))) with ⟨t, ht⟩
  have hu : (stripLead (collapseRuns (basenameL l))).head? = some d := by
    rw [← ht, List.head?_append, hd]
    rfl
  have hlead := List.head?_dropWhile_not leadChar (collapseRuns (basenameL l))
  rw [stripLead] at hu
  rw [hu] at hlead
  rw [leadChar_lowerChar]
  exact hlead

theorem revhead_caList_not_dash {l : List Char} {c : Char}
    (h : (caList l).reverse.head? = some c) : (c == '-') = false := by
  rw [caList, ← List.map_reverse, List.head?_map] at h
  rcases Option.map_eq_some'.mp h with ⟨d, hd, rfl⟩
  rw [stripTrailDash, List.reverse_reverse] at hd
  have hdash := List.head?_dropWhile_not (fun c => c == '-')
    (stripLead (collapseRuns (basenameL l))).reverse
  rw [hd] at hdash
  rw [dash_lowerChar]
  exact hdash

theorem map_lowerChar_caList (l : List Char) :
    (caList l).map lowerChar = caList l := by
  rw [caList, List.map_map]
  exact List.map_congr_left fun a _ => lowerChar_idem a

/-- C3 kernel: the character-list normalization is idempotent. -/
theorem caList_idempotent (l : List Char) : caList (caList l) = caList l := by
  have hall : ∀ c ∈ caList l, allowedChar c = true := fun c h => mem_caList_allowed h
  have h1 : basenameL (caList l) = caList l :=
    basenameL_of_no_slash fun c hc => allowedChar_ne_slash (hall c hc)
  have h2 : collapseRuns (caList l) = caList l := collapseRuns_of_all_allowed hall
  have h3 : stripLead (caList l) = caList l :=
    dropWhile_eq_self_of_head fun c hc => head_caList_not_lead hc
  have h4 : stripTrailDash (caList l) = caList l := by
    rw [stripTrailDash,
      dropWhile_eq_self_of_head fun c hc => revhead_caList_not_dash hc,
      List.reverse_reverse]
  conv_lhs => rw [caList, h1, h2, h3, h4]
  exact map_lowerChar_caList l

/-! ### Claim theorems C2 and C3 -/

/-- C2: for every input path string, `createAppName` computes exactly the
spec's algorithm — take the final path segment; replace every run of
characters outside `[A-Za-z0-9.-]` with a single `-`; strip leading `-`,
`_`, `.` characters and trailing `-` characters; lowercase the result — and
in particular `createAppName "/tmp/My App!!" = "my-app"` and
`createAppName "___" = ""`. -/
theorem createAppName_follows_spec :
    (∀ s : String, createAppName s = createAppNameSpec s) ∧
    createAppName "/tmp/My App!!" = "my-app" ∧ createAppName "___" = "" := by
  have h : ∀ s : String, createAppName s = createAppNameSpec s := by
    intro s
    simp only [createAppName, createAppNameSpec, caList, collapseRuns_eq_specCollapse]
  refine ⟨h, ?_, ?_⟩
  · rw [h]; decide
  · rw [h]; decide

/-- C3: name normalization is idempotent — for every input string `x`,
`createAppName (createAppName x) = createAppName x`. -/
theorem createAppName_idempotent (x : String) :
    createAppName (createAppName x) = createAppName x :=
  congrArg String.mk (caList_idempotent x.data)

/-! ### The confirmation parser (claim C1)

The generator's `confirm` helper tests stdin input against the regular
expression `/^y|yes|ok|true$/i`.  By regex alternation precedence this is
`(^y)|(yes)|(ok)|(true$)`: the test succeeds when the input starts with `y`,
contains `yes`, contains `ok`, or ends with `true` — case-insensitively.
`RegExp.test` returns whether a match exists anywhere in the input; the scan
below is the extensional equivalent over the case-folded character list. -/

/-- Boolean substring scan: does `pat` occur as a contiguous substring? -/
def hasInfix (pat : List Char) : List Char → Bool
  | [] => pat.isEmpty
  | c :: l => pat.isPrefixOf (c :: l) || hasInfix pat l

theorem hasInfix_iff {pat : List Char} :
    ∀ {l : List Char}, hasInfix pat l = true ↔ pat <:+: l
  | [] => by
    simp only [hasInfix, List.isEmpty_iff, List.infix_nil]
  | c :: l => by
    simp only [hasInfix, Bool.or_eq_true, List.isPrefixOf_iff_prefix,
      hasInfix_iff (l := l), List.infix_cons_iff]

/-- The `confirm` callback's test `/^y|yes|ok|true$/i.test(input)`
(case-insensitive matching is ASCII case folding here: the pattern letters
are ASCII, and a non-unicode-mode regex never folds a non-ASCII input
character onto an ASCII one). -/
def confirmTest (s : String) : Bool :=
  let l := s.data.map lowerChar
  ['y'].isPrefixOf l || hasInfix ['y', 'e', 's'] l || hasInfix ['o', 'k'] l ||
    ['t', 'r', 'u', 'e'].isSuffixOf l

/-- Stated from the claim's words: the entire input matches,
case-insensitively, one of the four words `y`, `yes`, `ok`, `true`. -/
def claimWholeWord (s : String) : Bool :=
  let l := s.data.map lowerChar
  l == ['y'] || l == ['y', 'e', 's'] || l == ['o', 'k'] || l == ['t', 'r', 'u', 'e']

/-- C1 counterexample: the input `nokia` is not one of the four words (it
merely contains `ok`), so the claim says the parser returns false, yet the
code's regex test accepts it. -/
theorem confirmTest_not_whole_word :
    confirmTest "nokia" = true ∧ claimWholeWord "nokia" = false := by
  constructor <;> decide

/-- C1 (amended): the confirmation parser returns true exactly when the
case-folded input starts with `y`, contains `yes` or `ok` as a substring,
or ends with `true`; every other input (including the empty string) yields
false.  The four listed whole words are accepted, but so is any input with
one of these occurrences. -/
theorem confirmTest_iff (s : String) :
    confirmTest s = true ↔
      ['y'] <+: s.data.map lowerChar ∨
        ['y', 'e', 's'] <:+: s.data.map lowerChar ∨
        ['o', 'k'] <:+: s.data.map lowerChar ∨
        ['t', 'r', 'u', 'e'] <:+ s.data.map lowerChar := by
  simp only [confirmTest, Bool.or_eq_true, List.isPrefixOf_iff_prefix,
    List.isSuffixOf_iff_suffix, hasInfix_iff, or_assoc]

/-! ### Destination emptiness check (claim C5)

`emptyDirectory(dir, fn)` calls `fs.readdir` and, in the callback, throws
every error whose code is not `ENOENT`, otherwise reports
`!files || !files.length`.  The listing outcome is embedded as
`Except code files`; a throw as `.error`, the reported boolean as `.ok`. -/

def emptyDirectory (rd : Except String (List String)) : Except String Bool :=
  match rd with
  | .ok files => .ok files.isEmpty
  | .error code => if code = "ENOENT" then .ok true else .error code

/-- C5: the destination-emptiness check reports the destination as empty
exactly when the listing yields no entries or fails with `ENOENT`; every
other listing error propagates as a raised error. -/
theorem emptyDirectory_spec (rd : Except String (List String)) :
    (emptyDirectory rd = .ok true ↔ rd = .ok [] ∨ rd = .error "ENOENT") ∧
    (∀ e, emptyDirectory rd = .error e ↔ rd = .error e ∧ e ≠ "ENOENT") := by
  constructor
  · match rd with
    | .ok files =>
      simp only [emptyDirectory, Except.ok.injEq, List.isEmpty_iff]
      constructor
      · intro h; exact Or.inl (by rw [h])
      · rintro (h | h) <;> simp_all
    | .error code =>
      by_cases h : code = "ENOENT" <;> simp [emptyDirectory, h]
  · intro e
    match rd with
    | .ok files => simp [emptyDirectory]
    | .error code =>
      by_cases h : code = "ENOENT"
      · subst h
        simp only [emptyDirectory, if_pos rfl]
        constructor
        · intro hc; cases hc
        · rintro ⟨h1, h2⟩
          cases h1
          exact absurd rfl h2
      · simp only [emptyDirectory, if_neg h, Except.error.injEq]
        constructor
        · intro hce
          exact ⟨by rw [hce], fun he => h (hce ▸ he)⟩
        · intro hce
          exact hce.1

/-! ### The package manifest (claim C4) -/

/-- The manifest object assembled by `createApplication`.  Mapping-valued
fields are association lists in insertion order, as JS object keys are. -/
structure Pkg where
  name : String
  version : String
  privateFlag : Bool
  main : String
  scripts : List (String × String)
  dependencies : List (String × String)
  devDependencies : List (String × String)

/-- The fixed baseline manifest literal of `createApplication`. -/
def basePkg (name : String) : Pkg :=
  { name
    version := "0.0.0"
    privateFlag := true
    main := "server.js"
    scripts := [("start", "NODE_ENV=production node server.js"),
      ("dev", "nodemon server.js"),
      ("lint", "eslint . --ext .js"),
      ("lint:fix", "eslint --fix . --ext .js"),
      ("test", "echo \"Error: no test specified\" && exit 1")]
    dependencies := [("chalk", "^2.4.1"), ("express", "^4.16.4")]
    devDependencies := [("eslint", "^5.10.0"),
      ("eslint-config-airbnb-base", "^13.1.0"),
      ("eslint-config-prettier", "^3.3.0"),
      ("eslint-plugin-import", "^2.14.0"),
      ("eslint-plugin-node", "^8.0.0"),
      ("eslint-plugin-prettier", "^3.0.0"),
      ("nodemon", "^1.18.8"),
      ("prettier", "^1.15.3")] }

/-- JS object property assignment `obj[k] = v`: updates in place when the
key exists (keeping its position), appends otherwise. -/
def objInsert (k v : String) : List (String × String) → List (String × String)
  | [] => [(k, v)]
  | (k', v') :: l => if k' = k then (k, v) :: l else (k', v') :: objInsert k v l

/-- Feature-dependency registrations `pkg.dependencies.<id> = <range>`
performed during `createApplication`.  The source registers exactly
`morgan`; the manifest theorem quantifies over an arbitrary registration
sequence to cover "regardless of registration order". -/
def registerDeps (regs : List (String × String)) (p : Pkg) : Pkg :=
  { p with dependencies := regs.foldl (fun d kv => objInsert kv.1 kv.2 d) p.dependencies }

/-- The registration sequence actually performed by the source. -/
def morganReg : List (String × String) := [("morgan", "^1.9.1")]

/-- Computable strict lexicographic comparison of key lists (code-point
order; this is the comparison JS `Array.prototype.sort` applies to the
string keys). -/
def keyLtB : List Char → List Char → Bool
  | _, [] => false
  | [], _ :: _ => true
  | a :: as, b :: bs =>
    if a.toNat < b.toNat then true
    else if b.toNat < a.toNat then false
    else keyLtB as bs

/-- Computable `a ≤ b` on string keys. -/
def keyLeS (a b : String) : Bool :=
  !(keyLtB b.data a.data)

theorem char_lt_iff_toNat {a b : Char} : a < b ↔ a.toNat < b.toNat := by
  rw [Char.lt_def, UInt32.lt_def, BitVec.lt_def]
  rfl

theorem keyLtB_iff : ∀ as bs : List Char, keyLtB as bs = true ↔ List.Lex (· < ·) as bs
  | as, [] => by
    rw [keyLtB.eq_def]
    constructor
    · intro h
      cases as <;> simp_all
    · intro h
      exact absurd h (List.Lex.not_nil_right _ _)
  | [], b :: bs => by
    simp only [keyLtB, true_iff]
    exact List.Lex.nil
  | a :: as, b :: bs => by
    rw [keyLtB]
    by_cases h1 : a.toNat < b.toNat
    · simp only [if_pos h1, true_iff]
      exact List.Lex.rel (char_lt_iff_toNat.mpr h1)
    · rw [if_neg h1]
      by_cases h2 : b.toNat < a.toNat
      · simp only [if_pos h2, Bool.false_eq_true, false_iff]
        intro hlex
        cases hlex with
        | cons h => omega
        | rel h => rw [char_lt_iff_toNat] at h; omega
      · rw [if_neg h2]
        have hab : a = b := char_eq_iff_toNat.mpr (by omega)
        subst hab
        rw [keyLtB_iff as bs]
        constructor
        · exact List.Lex.cons
        · intro hlex
          cases hlex with
          | cons h => exact h
          | rel h => rw [char_lt_iff_toNat] at h; omega

theorem string_lt_iff_keyLtB {a b : String} : a < b ↔ keyLtB a.data b.data = true := by
  rw [String.lt_iff_toList_lt, keyLtB_iff]
  rfl

theorem keyLeS_iff_le {a b : String} : keyLeS a b = true ↔ a ≤ b := by
  rw [keyLeS, Bool.not_eq_true', ← not_lt (α := String)]
  constructor
  · intro h hba
    rw [string_lt_iff_keyLtB] at hba
    rw [hba] at h
    cases h
  · intro h
    rw [Bool.eq_false_iff]
    intro hb
    exact h (string_lt_iff_keyLtB.mpr hb)

/-- One step of insertion into a key-sorted association list. -/
def insertSortedPair (p : String × String) :
    List (String × String) → List (String × String)
  | [] => [p]
  | q :: l => if keyLeS p.1 q.1 then p :: q :: l else q :: insertSortedPair p l

/-- The `sorted-object` package: a new object holding the same entries with
the keys in lexicographic sorted order (`Object.keys(obj).sort()`; for
distinct keys every comparison sort yields this insertion sort's result). -/
def sortedObject (l : List (String × String)) : List (String × String) :=
  l.foldr insertSortedPair []

/-- The `sort dependencies like npm(1)` step:
`pkg.dependencies = sortedObject(pkg.dependencies)`. -/
def finalizePkg (p : Pkg) : Pkg :=
  { p with dependencies := sortedObject p.dependencies }

/-! ### JSON serialization of the manifest -/

/-- Lowercase hexadecimal digit for `n < 16`. -/
def hexDigit (n : Nat) : Char :=
  if n < 10 then Char.ofNat (48 + n) else Char.ofNat (87 + n)

/-- Escaping performed by `JSON.stringify` inside a quoted string. -/
def jsonEscapeChar (c : Char) : List Char :=
  if c = '"' then ['\\', '"']
  else if c = '\\' then ['\\', '\\']
  else if c = '\x08' then ['\\', 'b']
  else if c = '\x09' then ['\\', 't']
  else if c = '\x0a' then ['\\', 'n']
  else if c = '\x0c' then ['\\', 'f']
  else if c = '\x0d' then ['\\', 'r']
  else if c.toNat < 32 then ['\\', 'u', '0', '0', hexDigit (c.toNat / 16), hexDigit (c.toNat % 16)]
  else [c]

/-- A `JSON.stringify` double-quoted string literal. -/
def jsonQuote (s : String) : String :=
  ⟨'"' :: s.data.foldr (fun c acc => jsonEscapeChar c ++ acc) ['"']⟩

/-- `JSON.stringify(v, null, 2)` for an object whose values are strings,
with `ind` the indentation prefix of the closing brace. -/
def renderStrObj (ind : String) (l : List (String × String)) : String :=
  match l with
  | [] => "\x7b\x7d"
  | _ =>
    "\x7b\n" ++
      String.intercalate ",\n"
        (l.map fun kv => ind ++ "  " ++ jsonQuote kv.1 ++ ": " ++ jsonQuote kv.2) ++
      "\n" ++ ind ++ "\x7d"

/-- `JSON.stringify(pkg, null, 2)`: the manifest pretty-printed with
two-space indentation, fields in insertion order. -/
def stringifyPkg (p : Pkg) : String :=
  "\x7b\n  \"name\": " ++ jsonQuote p.name ++
    ",\n  \"version\": " ++ jsonQuote p.version ++
    ",\n  \"private\": " ++ (if p.privateFlag then "true" else "false") ++
    ",\n  \"main\": " ++ jsonQuote p.main ++
    ",\n  \"scripts\": " ++ renderStrObj "  " p.scripts ++
    ",\n  \"dependencies\": " ++ renderStrObj "  " p.dependencies ++
    ",\n  \"devDependencies\": " ++ renderStrObj "  " p.devDependencies ++
    "\n\x7d"

/-- The manifest file content written by the generator:
`${JSON.stringify(pkg, null, 2)}\n`. -/
def manifestText (p : Pkg) : String :=
  stringifyPkg p ++ "\n"

/-! ### Manifest lemmas -/

theorem mem_keys_objInsert {a k v : String} :
    ∀ {l : List (String × String)},
      a ∈ (objInsert k v l).map Prod.fst → a = k ∨ a ∈ l.map Prod.fst
  | [], h => by
    simp only [objInsert, List.map_cons, List.map_nil, List.mem_singleton] at h
    exact Or.inl h
  | (k', v') :: l, h => by
    rw [objInsert] at h
    by_cases hk : k' = k
    · rw [if_pos hk] at h
      rcases List.mem_cons.mp h with rfl | h
      · exact Or.inl rfl
      · exact Or.inr (List.mem_cons_of_mem _ h)
    · rw [if_neg hk] at h
      rcases List.mem_cons.mp h with rfl | h
      · exact Or.inr (List.mem_cons_self _ _)
      · rcases mem_keys_objInsert h with h | h
        · exact Or.inl h
        · exact Or.inr (List.mem_cons_of_mem _ h)

theorem nodup_keys_objInsert {k v : String} :
    ∀ {l : List (String × String)},
      (l.map Prod.fst).Nodup → ((objInsert k v l).map Prod.fst).Nodup
  | [], _ => by simp [objInsert]
  | (k', v') :: l, h => by
    rw [List.map_cons, List.nodup_cons] at h
    rw [objInsert]
    by_cases hk : k' = k
    · rw [if_pos hk, List.map_cons, List.nodup_cons]
      exact ⟨hk ▸ h.1, h.2⟩
    · rw [if_neg hk, List.map_cons, List.nodup_cons]
      refine ⟨fun hmem => ?_, nodup_keys_objInsert h.2⟩
      rcases mem_keys_objInsert hmem with rfl | hmem
      · exact hk rfl
      · exact h.1 hmem

theorem nodup_keys_foldl_objInsert (regs : List (String × String)) :
    ∀ {d : List (String × String)}, (d.map Prod.fst).Nodup →
      ((regs.foldl (fun d kv => objInsert kv.1 kv.2 d) d).map Prod.fst).Nodup := by
  induction regs with
  | nil => intro d h; exact h
  | cons kv regs ih =>
    intro d h
    exact ih (nodup_keys_objInsert h)

theorem insertSortedPair_perm (p : String × String) :
    ∀ l, List.Perm (insertSortedPair p l) (p :: l)
  | [] => List.Perm.refl _
  | q :: l => by
    rw [insertSortedPair]
    by_cases h : keyLeS p.1 q.1 = true
    · rw [if_pos h]
    · rw [if_neg h]
      exact (List.Perm.cons q (insertSortedPair_perm p l)).trans (List.Perm.swap p q l)

theorem sortedObject_perm : ∀ l, List.Perm (sortedObject l) l
  | [] => List.Perm.refl _
  | x :: l =>
    (insertSortedPair_perm x (sortedObject l)).trans (List.Perm.cons x (sortedObject_perm l))

theorem pairwise_insertSortedPair {p : String × String} :
    ∀ {l : List (String × String)},
      l.Pairwise (fun a b => a.1 ≤ b.1) →
        (insertSortedPair p l).Pairwise (fun a b => a.1 ≤ b.1)
  | [], _ => by simp [insertSortedPair]
  | q :: l, h => by
    rw [List.pairwise_cons] at h
    rw [insertSortedPair]
    by_cases hle : keyLeS p.1 q.1 = true
    · rw [if_pos hle, List.pairwise_cons]
      refine ⟨fun x hx => ?_, List.pairwise_cons.mpr h⟩
      rcases List.mem_cons.mp hx with rfl | hx
      · exact keyLeS_iff_le.mp hle
      · exact le_trans (keyLeS_iff_le.mp hle) (h.1 x hx)
    · rw [if_neg hle, List.pairwise_cons]
      refine ⟨fun x hx => ?_, pairwise_insertSortedPair h.2⟩
      rcases List.mem_cons.mp ((insertSortedPair_perm p l).mem_iff.mp hx) with rfl | hx
      · exact le_of_not_le fun hc => hle (keyLeS_iff_le.mpr hc)
      · exact h.1 x hx

theorem pairwise_sortedObject :
    ∀ l, (sortedObject l).Pairwise (fun a b : String × String => a.1 ≤ b.1)
  | [] => List.Pairwise.nil
  | _ :: l => pairwise_insertSortedPair (pairwise_sortedObject l)

/-- With pairwise-distinct keys, `sortedObject` emits the keys in strictly
increasing lexicographic order. -/
theorem keys_sortedObject_strict {l : List (String × String)}
    (hnd : (l.map Prod.fst).Nodup) :
    ((sortedObject l).map Prod.fst).Pairwise (· < ·) := by
  have hle : ((sortedObject l).map Prod.fst).Pairwise (· ≤ ·) :=
    List.pairwise_map.mpr (pairwise_sortedObject l)
  have hnd' : ((sortedObject l).map Prod.fst).Nodup :=
    (((sortedObject_perm l).map Prod.fst).nodup_iff).mpr hnd
  exact (hle.and hnd').imp fun h => lt_of_le_of_ne h.1 h.2

/-- The expected content of `package.json` for app name `node-skeleton`
with the source's `morgan` registration. -/
def expectedManifestText : String :=
  "\x7b\n  \"name\": \"node-skeleton\",\n  \"version\": \"0.0.0\",\n  \"private\": true,\n  \"main\": \"server.js\",\n  \"scripts\": \x7b\n    \"start\": \"NODE_ENV=production node server.js\",\n    \"dev\": \"nodemon server.js\",\n    \"lint\": \"eslint . --ext .js\",\n    \"lint:fix\": \"eslint --fix . --ext .js\",\n    \"test\": \"echo \\\"Error: no test specified\\\" && exit 1\"\n  \x7d,\n  \"dependencies\": \x7b\n    \"chalk\": \"^2.4.1\",\n    \"express\": \"^4.16.4\",\n    \"morgan\": \"^1.9.1\"\n  \x7d,\n  \"devDependencies\": \x7b\n    \"eslint\": \"^5.10.0\",\n    \"eslint-config-airbnb-base\": \"^13.1.0\",\n    \"eslint-config-prettier\": \"^3.3.0\",\n    \"eslint-plugin-import\": \"^2.14.0\",\n    \"eslint-plugin-node\": \"^8.0.0\",\n    \"eslint-plugin-prettier\": \"^3.0.0\",\n    \"nodemon\": \"^1.18.8\",\n    \"prettier\": \"^1.15.3\"\n  \x7d\n\x7d\n"

theorem stringifyPkg_getLast (p : Pkg) :
    (stringifyPkg p).data.getLast? = some '\x7d' := by
  rw [stringifyPkg]
  simp only [String.data_append, List.getLast?_append]
  rfl

set_option maxRecDepth 8000 in
/-- C4: in the serialized manifest, `dependencies` keys are in strict
lexicographic order for every registration sequence, while `scripts` and
`devDependencies` keep their insertion order; the manifest is serialized as
pretty-printed JSON with 2-space indentation terminated by a single
trailing newline (the serialized body ends with the closing brace, so
exactly one newline follows it); the concrete output for the source's
actual registrations is the expected text. -/
theorem manifest_sorted_and_format (name : String) (regs : List (String × String)) :
    (((finalizePkg (registerDeps regs (basePkg name))).dependencies.map Prod.fst).Pairwise
        (· < ·)) ∧
      (finalizePkg (registerDeps regs (basePkg name))).scripts = (basePkg name).scripts ∧
      (finalizePkg (registerDeps regs (basePkg name))).devDependencies =
        (basePkg name).devDependencies ∧
      manifestText (finalizePkg (registerDeps regs (basePkg name))) =
        stringifyPkg (finalizePkg (registerDeps regs (basePkg name))) ++ "\n" ∧
      (stringifyPkg (finalizePkg (registerDeps regs (basePkg name)))).data.getLast? =
        some '\x7d' ∧
      manifestText (finalizePkg (registerDeps morganReg (basePkg "node-skeleton"))) =
        expectedManifestText := by
  refine ⟨?_, rfl, rfl, rfl, stringifyPkg_getLast _, ?_⟩
  · apply keys_sortedObject_strict
    apply nodup_keys_foldl_objInsert
    show ((basePkg "x").dependencies.map Prod.fst).Nodup
    decide
  · rfl

/-! ### Safe-inspect escaping of interpolated values (claim C7)

`loadTemplate` renders with `ejs.render(contents, locals, { escape:
util.inspect })`, so every interpolated value is passed through
`util.inspect`.  The `app.js` template file and the `ejs`/`util` libraries
are not part of this repository's sources, so the renderer and the
string formatting of `util.inspect` are modelled from the spec below. -/

/-- Generic small-natural lemma helper: `Char.ofNat` of a small code point. -/
theorem toNat_ofNat_small {n : Nat} (h : n < 0xd800) : (Char.ofNat n).toNat = n := by
  have hv : n.isValidChar := Or.inl h
  rw [Char.ofNat, dif_pos hv]
  rfl

/-- Modelled from the spec: quote selection of Node `util.inspect` for
strings (the "safe-inspect transform" of §4.3) — single quote by default;
double quote when the value contains a single quote but no double quote;
backtick when it contains both but no backtick and no template
interpolation opener. -/
def chooseQuote (l : List Char) : Char :=
  if !(l.contains '\x27') then '\x27'
  else if !(l.contains '"') then '"'
  else if !(l.contains '\x60') && !(hasInfix ['$', '\x7b'] l) then '\x60'
  else '\x27'

/-- Modelled from the spec: per-character escaping of Node `util.inspect`
under quote `q` — escape the quote and the backslash, use the conventional
short escapes for common control characters, hex escapes for the remaining
control characters, and pass everything else through. -/
def escChar (q c : Char) : List Char :=
  if c = q ∨ c = '\\' then ['\\', c]
  else if c = '\x08' then ['\\', 'b']
  else if c = '\x09' then ['\\', 't']
  else if c = '\x0a' then ['\\', 'n']
  else if c = '\x0c' then ['\\', 'f']
  else if c = '\x0d' then ['\\', 'r']
  else if c.toNat < 32 ∨ c.toNat = 127 then
    ['\\', 'x', hexDigit (c.toNat / 16), hexDigit (c.toNat % 16)]
  else [c]

/-- The escaped body of an inspected string. -/
def escBody (q : Char) : List Char → List Char
  | [] => []
  | c :: l => escChar q c ++ escBody q l

/-- Modelled from the spec: Node `util.inspect` on a string value — the
value's literal source-code textual representation: a quoted, escaped
string literal. -/
def inspectStr (s : String) : String :=
  ⟨chooseQuote s.data :: escBody (chooseQuote s.data) s.data ++ [chooseQuote s.data]⟩

/-- Hexadecimal digit value, for reading `\xHH` escapes. -/
def hexVal? (c : Char) : Option Nat :=
  if 48 ≤ c.toNat ∧ c.toNat ≤ 57 then some (c.toNat - 48)
  else if 97 ≤ c.toNat ∧ c.toNat ≤ 102 then some (c.toNat - 87)
  else if 65 ≤ c.toNat ∧ c.toNat ≤ 70 then some (c.toNat - 55)
  else none

mutual

/-- Parser for the body of a JS string literal opened with quote `q`:
returns the denoted character sequence when the remaining input is a
syntactically valid literal body terminated by the closing quote at the
very end, and `none` otherwise.  Raw newlines, raw occurrences of the
quote (except the final one), dangling backslashes, template
interpolation openers inside backtick literals, and the escape forms the
inspect transform never emits (octal, `\u`, line continuations) are all
rejected. -/
def parseBody (q : Char) : List Char → Option (List Char)
  | [] => none
  | c :: rest =>
    if c = q then (if rest.isEmpty then some [] else none)
    else if c = '\\' then parseEsc q rest
    else if c = '\x0a' ∨ c = '\x0d' then none
    else if q = '\x60' ∧ c = '$' ∧ rest.head? = some '\x7b' then none
    else (parseBody q rest).map (fun l => c :: l)
termination_by l => l.length

/-- Continuation of `parseBody` after a backslash. -/
def parseEsc (q : Char) : List Char → Option (List Char)
  | [] => none
  | e :: rest =>
    if e = 'n' then (parseBody q rest).map (fun l => '\x0a' :: l)
    else if e = 't' then (parseBody q rest).map (fun l => '\x09' :: l)
    else if e = 'r' then (parseBody q rest).map (fun l => '\x0d' :: l)
    else if e = 'b' then (parseBody q rest).map (fun l => '\x08' :: l)
    else if e = 'f' then (parseBody q rest).map (fun l => '\x0c' :: l)
    else if e = 'x' then parseHexEsc q rest
    else if e = 'u' ∨ (48 ≤ e.toNat ∧ e.toNat ≤ 57) ∨ e = '\x0a' ∨ e = '\x0d' then none
    else (parseBody q rest).map (fun l => e :: l)
termination_by l => l.length

/-- Continuation of `parseBody` after a `\x` escape opener: two hexadecimal
digits denoting one character. -/
def parseHexEsc (q : Char) : List Char → Option (List Char)
  | h1 :: h2 :: rest =>
    (hexVal? h1).bind fun v1 =>
      (hexVal? h2).bind fun v2 =>
        (parseBody q rest).map (fun l => Char.ofNat (16 * v1 + v2) :: l)
  | _ => none
termination_by l => l.length

end

/-- Parser for a complete JS string literal. -/
def parseLit : List Char → Option (List Char)
  | [] => none
  | q :: rest =>
    if q = '\x27' ∨ q = '"' ∨ q = '\x60' then parseBody q rest else none

/-- Modelled from the spec: a template is literal text interleaved with
interpolations of bound names (conditional and loop constructs re-emit
sub-templates of the same shape, so their interpolations factor through
the same two constructors). -/
inductive Seg
  | lit (t : String)
  | interp (name : String)

/-- Modelled from the spec: the render step emits literal text verbatim
and passes every interpolated value through the configured escape
function, which `loadTemplate` sets to `util.inspect`. -/
def renderTpl (binding : String → String) : List Seg → String
  | [] => ""
  | .lit t :: rest => t ++ renderTpl binding rest
  | .interp n :: rest => inspectStr (binding n) ++ renderTpl binding rest

/-! ### Round trip: the inspected literal denotes exactly the value -/

theorem hexVal?_hexDigit {n : Nat} (h : n < 16) : hexVal? (hexDigit n) = some n := by
  by_cases h10 : n < 10
  · have ht : (hexDigit n).toNat = 48 + n := by
      rw [hexDigit, if_pos h10]
      exact toNat_ofNat_small (by omega)
    rw [hexVal?, ht, if_pos (by omega)]
    congr 1
    omega
  · have ht : (hexDigit n).toNat = 87 + n := by
      rw [hexDigit, if_neg h10]
      exact toNat_ofNat_small (by omega)
    rw [hexVal?, ht, if_neg (by omega), if_pos (by omega)]
    congr 1
    omega

theorem escChar_head (q c : Char) :
    (escChar q c).head? = some '\\' ∨ (escChar q c).head? = some c := by
  rw [escChar]
  repeat' split
  all_goals first | exact Or.inl rfl | exact Or.inr rfl

theorem hasInfix_cons_false {pat : List Char} {c : Char} {l : List Char}
    (h : hasInfix pat (c :: l) = false) : hasInfix pat l = false := by
  rw [hasInfix, Bool.or_eq_false_iff] at h
  exact h.2

/-- Stepping the literal parser over one escaped source character. -/
theorem parseBody_escChar (q c : Char) (rest : List Char)
    (hq : q = '\x27' ∨ q = '"' ∨ q = '\x60')
    (hlook : ¬(q = '\x60' ∧ c = '$' ∧ rest.head? = some '\x7b')) :
    parseBody q (escChar q c ++ rest) = (parseBody q rest).map (fun l => c :: l) := by
  have hqb : ('\\' : Char) ≠ q := by
    rcases hq with rfl | rfl | rfl <;> decide
  have hbs : ∀ r : List Char,
      parseBody q ('\\' :: r) = parseEsc q r := by
    intro r
    rw [parseBody, if_neg (fun h => hqb h), if_pos rfl]
  by_cases h1 : c = q ∨ c = '\\'
  · rw [escChar, if_pos h1]
    rw [List.cons_append, List.singleton_append, hbs]
    rcases h1 with rfl | rfl
    · rcases hq with rfl | rfl | rfl <;> simp [parseEsc]
    · rcases hq with rfl | rfl | rfl <;> simp [parseEsc]
  · by_cases h2 : c = '\x08'
    · subst h2
      rw [escChar, if_neg h1, if_pos rfl]
      rw [List.cons_append, List.singleton_append, hbs]
      simp [parseEsc]
    · by_cases h3 : c = '\x09'
      · subst h3
        rw [escChar, if_neg h1, if_neg (by decide), if_pos rfl]
        rw [List.cons_append, List.singleton_append, hbs]
        simp [parseEsc]
      · by_cases h4 : c = '\x0a'
        · subst h4
          rw [escChar, if_neg h1, if_neg (by decide), if_neg (by decide), if_pos rfl]
          rw [List.cons_append, List.singleton_append, hbs]
          simp [parseEsc]
        · by_cases h5 : c = '\x0c'
          · subst h5
            rw [escChar, if_neg h1, if_neg (by decide), if_neg (by decide),
              if_neg (by decide), if_pos rfl]
            rw [List.cons_append, List.singleton_append, hbs]
            simp [parseEsc]
          · by_cases h6 : c = '\x0d'
            · subst h6
              rw [escChar, if_neg h1, if_neg (by decide), if_neg (by decide),
                if_neg (by decide), if_neg (by decide), if_pos rfl]
              rw [List.cons_append, List.singleton_append, hbs]
              simp [parseEsc]
            · by_cases h7 : c.toNat < 32 ∨ c.toNat = 127
              · rw [escChar, if_neg h1, if_neg h2, if_neg h3, if_neg h4, if_neg h5,
                  if_neg h6, if_pos h7]
                have hd1 : c.toNat / 16 < 16 := by omega
                have hd2 : c.toNat % 16 < 16 := by omega
                rw [List.cons_append, List.cons_append, List.cons_append,
                  List.singleton_append, hbs]
                rw [parseEsc, if_neg (by decide), if_neg (by decide),
                  if_neg (by decide), if_neg (by decide), if_neg (by decide),
                  if_pos rfl]
                rw [parseHexEsc, hexVal?_hexDigit hd1, hexVal?_hexDigit hd2,
                  Option.some_bind, Option.some_bind, Nat.div_add_mod,
                  Char.ofNat_toNat]
              · have hesc : escChar q c = [c] := by
                  rw [escChar, if_neg h1, if_neg h2, if_neg h3, if_neg h4, if_neg h5,
                    if_neg h6, if_neg h7]
                have hcq : ¬ c = q := fun h => h1 (Or.inl h)
                have hcb : ¬ c = '\\' := fun h => h1 (Or.inr h)
                rw [hesc, List.singleton_append, parseBody, if_neg hcq, if_neg hcb,
                  if_neg (by rintro (h | h) <;> [exact h4 h; exact h6 h]), if_neg hlook]

/-- Round-tripping the full escaped body: the parser recovers the original
characters and consumes the closing quote last. -/
theorem parseBody_escBody (q : Char) (hq : q = '\x27' ∨ q = '"' ∨ q = '\x60') :
    ∀ l : List Char, (q = '\x60' → hasInfix ['$', '\x7b'] l = false) →
      parseBody q (escBody q l ++ [q]) = some l
  | [], _ => by
    rcases hq with rfl | rfl | rfl <;> simp [escBody, parseBody]
  | c :: l, hsub => by
    have hlook : ¬(q = '\x60' ∧ c = '$' ∧ (escBody q l ++ [q]).head? = some '\x7b') := by
      rintro ⟨rfl, rfl, hhead⟩
      have hfalse := hsub rfl
      cases l with
      | nil => simp [escBody] at hhead
      | cons d l2 =>
        rcases escChar_head '\x60' d with hh | hh
        · rw [escBody, List.append_assoc, List.head?_append, hh] at hhead
          simp at hhead
        · rw [escBody, List.append_assoc, List.head?_append, hh] at hhead
          simp only [Option.or_some, Option.some.injEq] at hhead
          subst hhead
          rw [hasInfix, List.isPrefixOf, List.isPrefixOf, List.isPrefixOf] at hfalse
          simp at hfalse
    rw [escBody, List.append_assoc, parseBody_escChar q c _ hq hlook,
      parseBody_escBody q hq l (fun hqq => hasInfix_cons_false (hsub hqq))]
    rfl

theorem chooseQuote_mem (l : List Char) :
    chooseQuote l = '\x27' ∨ chooseQuote l = '"' ∨ chooseQuote l = '\x60' := by
  rw [chooseQuote]
  repeat' split
  · exact Or.inl rfl
  · exact Or.inr (Or.inl rfl)
  · exact Or.inr (Or.inr rfl)
  · exact Or.inl rfl

theorem chooseQuote_backtick {l : List Char} (h : chooseQuote l = '\x60') :
    hasInfix ['$', '\x7b'] l = false := by
  rw [chooseQuote] at h
  split at h
  · exact absurd h (by decide)
  · split at h
    · exact absurd h (by decide)
    · split at h
      · rename_i hcond
        rw [Bool.and_eq_true, Bool.not_eq_true', Bool.not_eq_true'] at hcond
        exact hcond.2
      · exact absurd h (by decide)

/-- The inspected literal parses back to exactly the inspected value. -/
theorem parseLit_inspectStr (s : String) :
    parseLit (inspectStr s).data = some s.data := by
  have hq := chooseQuote_mem s.data
  show parseLit (chooseQuote s.data :: (escBody (chooseQuote s.data) s.data ++ [chooseQuote s.data])) = some s.data
  rw [parseLit, if_pos hq]
  exact parseBody_escBody _ hq s.data chooseQuote_backtick

theorem toNat_hexDigit_ne {n : Nat} (h : n < 16) :
    (hexDigit n).toNat ≠ 10 ∧ (hexDigit n).toNat ≠ 13 := by
  by_cases h10 : n < 10
  · rw [hexDigit, if_pos h10, toNat_ofNat_small (by omega)]
    omega
  · rw [hexDigit, if_neg h10, toNat_ofNat_small (by omega)]
    omega

theorem mem_escChar_not_newline {q c d : Char}
    (hq : q = '\x27' ∨ q = '"' ∨ q = '\x60') (h : d ∈ escChar q c) :
    d.toNat ≠ 10 ∧ d.toNat ≠ 13 := by
  rw [escChar] at h
  split at h
  · rename_i hc
    rcases List.mem_cons.mp h with rfl | h
    · decide
    · rcases List.mem_singleton.mp h with rfl
      rcases hc with rfl | rfl
      · rcases hq with rfl | rfl | rfl <;> decide
      · decide
  · split at h
    · rcases List.mem_cons.mp h with rfl | h
      · decide
      · rcases List.mem_singleton.mp h with rfl; decide
    · split at h
      · rcases List.mem_cons.mp h with rfl | h
        · decide
        · rcases List.mem_singleton.mp h with rfl; decide
      · split at h
        · rcases List.mem_cons.mp h with rfl | h
          · decide
          · rcases List.mem_singleton.mp h with rfl; decide
        · split at h
          · rcases List.mem_cons.mp h with rfl | h
            · decide
            · rcases List.mem_singleton.mp h with rfl; decide
          · split at h
            · rcases List.mem_cons.mp h with rfl | h
              · decide
              · rcases List.mem_singleton.mp h with rfl; decide
            · split at h
              · rename_i hctl
                have hd1 : c.toNat / 16 < 16 := by omega
                have hd2 : c.toNat % 16 < 16 := by omega
                rcases List.mem_cons.mp h with rfl | h
                · decide
                · rcases List.mem_cons.mp h with rfl | h
                  · decide
                  · rcases List.mem_cons.mp h with rfl | h
                    · exact toNat_hexDigit_ne hd1
                    · rcases List.mem_singleton.mp h with rfl
                      exact toNat_hexDigit_ne hd2
              · rename_i hctl
                rcases List.mem_singleton.mp h with rfl
                constructor <;> intro hd <;> exact hctl (Or.inl (by omega))

theorem mem_escBody {q d : Char} :
    ∀ {l : List Char}, d ∈ escBody q l → ∃ c ∈ l, d ∈ escChar q c
  | [], h => by simp [escBody] at h
  | c :: l, h => by
    rw [escBody] at h
    rcases List.mem_append.mp h with h | h
    · exact ⟨c, List.mem_cons_self c l, h⟩
    · rcases mem_escBody h with ⟨c2, hc2, hd⟩
      exact ⟨c2, List.mem_cons_of_mem c hc2, hd⟩

/-- Characters of an inspected literal are never raw newlines. -/
theorem inspectStr_no_raw_newline (s : String) :
    ∀ d ∈ (inspectStr s).data, d.toNat ≠ 10 ∧ d.toNat ≠ 13 := by
  intro d hd
  have hq := chooseQuote_mem s.data
  have hqn : ∀ e : Char, e = chooseQuote s.data → e.toNat ≠ 10 ∧ e.toNat ≠ 13 := by
    rintro e rfl
    rcases hq with h | h | h <;> rw [h] <;> decide
  rcases List.mem_cons.mp hd with rfl | hd
  · exact hqn _ rfl
  · rcases List.mem_append.mp hd with hd | hd
    · rcases mem_escBody hd with ⟨c, _, hdc⟩
      exact mem_escChar_not_newline hq hdc
    · rcases List.mem_singleton.mp hd with rfl
      exact hqn _ rfl

theorem renderTpl_append (b : String → String) (s t : List Seg) :
    renderTpl b (s ++ t) = renderTpl b s ++ renderTpl b t := by
  induction s with
  | nil => simp [renderTpl]
  | cons seg s ih =>
    cases seg with
    | lit u => rw [List.cons_append, renderTpl, renderTpl, ih, String.append_assoc]
    | interp n => rw [List.cons_append, renderTpl, renderTpl, ih, String.append_assoc]

/-- C7: every interpolated value passes through the safe-inspect transform:
wherever an interpolation occurs in a template, the rendered output contains
`inspectStr` of the bound value at that position; `inspectStr` of any string
value is a properly quoted and escaped literal — parsing it as a JS string
literal succeeds and denotes exactly the original value — and it contains no
raw (unescaped) newline or carriage-return characters; concretely, the value
`a"b\nc` (double-quote and newline) renders as the single-quoted literal
with the newline escaped. -/
theorem interpolation_escaped (s : String) :
    parseLit (inspectStr s).data = some s.data ∧
      (∀ d ∈ (inspectStr s).data, d.toNat ≠ 10 ∧ d.toNat ≠ 13) ∧
      (∀ (b : String → String) (pre post : List Seg) (n : String),
        renderTpl b (pre ++ Seg.interp n :: post) =
          renderTpl b pre ++ (inspectStr (b n) ++ renderTpl b post)) ∧
      inspectStr "a\"b\nc" = "\x27a\"b\\nc\x27" :=
  ⟨parseLit_inspectStr s, inspectStr_no_raw_newline s,
    fun b pre post n => by rw [renderTpl_append]; rfl,
    by decide⟩

/-- C7 witness at the concrete value with a double-quote and a newline:
the inspected literal parses back to the value, and the quote character of
the emitted literal is not a raw newline. -/
theorem interpolation_escaped_witness :
    parseLit (inspectStr "a\"b\nc").data = some ("a\"b\nc").data ∧
      (('\x27' : Char).toNat ≠ 10 ∧ ('\x27' : Char).toNat ≠ 13) :=
  ⟨(interpolation_escaped "a\"b\nc").1,
    (interpolation_escaped "a\"b\nc").2.1 '\x27' (by decide)⟩

/-! ### The scaffolding effect trace (claims C6, C8, C9)

`createApplication(name, dir)` performs a fixed sequence of filesystem
effects; `main()` decides, from the destination listing, the force flag and
(when needed) the confirmation answer, whether to perform them.  The
effects are embedded as an explicit event list. -/

/-- One observable effect of the generator: a `mkdirp` call (with its base
and relative argument), a file write (path and content), the confirmation
prompt, or process exit with a status code. -/
inductive Ev
  | mkdirE (base rel : String)
  | writeE (path content : String)
  | promptE
  | exitE (code : Nat)
deriving DecidableEq

/-- Node `path.join` for the argument shapes the generator passes it
(plain relative segments, no traversal): a `.` segment is removed by the
join normalization, other segments are appended with the separator. -/
def joinPath (base rel : String) : String :=
  if rel = "." then base else base ++ "/" ++ rel

/-- The `minimatch` filter `'*.js'` with `matchBase`: the name ends in
`.js`, and `*` does not match a leading dot (dotfiles are excluded). -/
def matchStarJs (name : String) : Bool :=
  name.endsWith ".js" && !(name.startsWith ".")

/-- The static template assets the generator reads: the verbatim-copied
files, the directory listings of `templates/config` and
`templates/routers` (name and content pairs), and the `app.js` template
(modelled from the spec as literal/interpolation segments, see `Seg`). -/
structure Tpl where
  serverJs : String
  gitignore : String
  eslintrc : String
  prettierrc : String
  appSegs : List Seg
  configFiles : List (String × String)
  routerFiles : List (String × String)

/-- Modelled from the spec: the app template binding assembled during
`createApplication` (logger module, body-parser uses, index and user
router mounts), exposed to interpolations as bound names. -/
def appBinding : String → String :=
  fun k =>
    if k = "logger" then "morgan"
    else if k = "mountPathIndex" then "/"
    else if k = "mountPathUser" then "/user"
    else ""

/-- The rendered `app.js` content: the app template evaluated against the
live binding through the escaping renderer. -/
def appRendered (tpl : Tpl) : String :=
  renderTpl appBinding tpl.appSegs

/-- The filesystem effects of `createApplication(name, dir)`, in source
order: destination mkdir unless `dir` is the literal `"."`; `server.js`
copy; `config` mkdir and `*.js` glob-copies into `${dir}/config`;
`routers` mkdir and `*.js` glob-copies into `${dir}/routers`;
`.gitignore`, `.eslintrc.js`, `.prettierrc.js` copies; the rendered
`app.js` write; the serialized `package.json` write (dependencies sorted,
`morgan` registered). -/
def createAppTrace (name dir : String) (tpl : Tpl) : List Ev :=
  (if dir ≠ "." then [Ev.mkdirE dir "."] else []) ++
    [Ev.writeE (joinPath dir "server.js") tpl.serverJs] ++
    [Ev.mkdirE dir "config"] ++
    ((tpl.configFiles.filter (fun nc => matchStarJs nc.1)).map
      (fun nc => Ev.writeE (joinPath (dir ++ "/config") nc.1) nc.2)) ++
    [Ev.mkdirE dir "routers"] ++
    ((tpl.routerFiles.filter (fun nc => matchStarJs nc.1)).map
      (fun nc => Ev.writeE (joinPath (dir ++ "/routers") nc.1) nc.2)) ++
    [Ev.writeE (joinPath dir ".gitignore") tpl.gitignore] ++
    [Ev.writeE (joinPath dir ".eslintrc.js") tpl.eslintrc] ++
    [Ev.writeE (joinPath dir ".prettierrc.js") tpl.prettierrc] ++
    [Ev.writeE (joinPath dir "app.js") (appRendered tpl)] ++
    [Ev.writeE (joinPath dir "package.json")
      (manifestText (finalizePkg (registerDeps morganReg (basePkg name))))]

/-- Modelled from the spec: `path.resolve` as used for app-name
derivation — an absolute destination is kept, a relative one is anchored
at the working directory.  (The later basename extraction makes deeper
normalization irrelevant for traversal-free destinations.) -/
def resolvePath (cwd p : String) : String :=
  if p.startsWith "/" then p else cwd ++ "/" ++ p

/-- `createAppName(path.resolve(destinationPath)) || 'node-skeleton'`:
an empty sanitized name falls back to the default. -/
def appNameOf (cwd dest : String) : String :=
  if createAppName (resolvePath cwd dest) = "" then "node-skeleton"
  else createAppName (resolvePath cwd dest)

/-- `main()`: destination listing drives CHECK_EMPTY; an empty (or
forced) destination proceeds straight to scaffolding; otherwise the
confirmation prompt is issued and the answer decides between scaffolding
and aborting with exit status 1.  A listing error other than ENOENT
propagates.  Normal process termination is recorded as `exitE 0`. -/
def mainTrace (rd : Except String (List String)) (force : Bool) (answer : String)
    (cwd dest : String) (tpl : Tpl) : Except String (List Ev) :=
  match emptyDirectory rd with
  | .error e => .error e
  | .ok empty =>
    if empty || force then
      .ok (createAppTrace (appNameOf cwd dest) dest tpl ++ [Ev.exitE 0])
    else if confirmTest answer then
      .ok (Ev.promptE :: (createAppTrace (appNameOf cwd dest) dest tpl ++ [Ev.exitE 0]))
    else
      .ok [Ev.promptE, Ev.exitE 1]

/-- A minimal concrete template assignment, for concrete instantiations. -/
def tpl0 : Tpl :=
  ⟨"", "", "", "", [], [], []⟩

/-- The scaffold effect sequence never contains the confirmation prompt. -/
theorem promptE_not_mem_createAppTrace (name dir : String) (tpl : Tpl) :
    Ev.promptE ∉ createAppTrace name dir tpl := by
  intro h
  rw [createAppTrace] at h
  simp only [List.mem_append, List.mem_map, List.mem_singleton, List.mem_filter] at h
  rcases h with ((((((((((h | h) | h) | h) | h) | h) | h) | h) | h) | h) | h)
  · split at h <;> simp_all
  all_goals exact absurd h (by simp)

/-- C6: when the destination is empty or the force flag is set, the
orchestrator proceeds with no confirmation prompt anywhere in its effect
trace and exits 0 after scaffolding; when the destination is non-empty and
force is not set, the confirmation prompt is the first event — before any
write — and then a declined confirmation produces no mkdir/write events and
exit status 1, while an accepted one scaffolds and exits 0. -/
theorem orchestrator_prompt_policy (rd : Except String (List String)) (force : Bool)
    (answer cwd dest : String) (tpl : Tpl) :
    (∀ b, emptyDirectory rd = .ok b → b = true ∨ force = true →
      mainTrace rd force answer cwd dest tpl =
          .ok (createAppTrace (appNameOf cwd dest) dest tpl ++ [Ev.exitE 0]) ∧
        Ev.promptE ∉ createAppTrace (appNameOf cwd dest) dest tpl ++ [Ev.exitE 0]) ∧
      (emptyDirectory rd = .ok false → force = false →
        (confirmTest answer = false →
          mainTrace rd force answer cwd dest tpl = .ok [Ev.promptE, Ev.exitE 1]) ∧
          (confirmTest answer = true →
            mainTrace rd force answer cwd dest tpl =
              .ok (Ev.promptE ::
                (createAppTrace (appNameOf cwd dest) dest tpl ++ [Ev.exitE 0])))) := by
  constructor
  · intro b hb h
    constructor
    · rw [mainTrace, hb]
      rcases h with rfl | rfl
      · simp
      · simp
    · intro hmem
      rcases List.mem_append.mp hmem with hmem | hmem
      · exact promptE_not_mem_createAppTrace _ _ _ hmem
      · rcases List.mem_singleton.mp hmem with h
        cases h
  · intro hne hforce
    subst hforce
    rw [mainTrace, hne]
    constructor
    · intro hdecl
      simp [hdecl]
    · intro hacc
      simp [hacc]

/-- C6 witness: a destination listed with one file, no force flag, and the
answer `n` issues exactly the prompt and an exit with status 1 — no writes. -/
theorem orchestrator_prompt_policy_witness :
    mainTrace (.ok ["f"]) false "n" "/w" "d" tpl0 = .ok [Ev.promptE, Ev.exitE 1] :=
  ((orchestrator_prompt_policy (.ok ["f"]) false "n" "/w" "d" tpl0).2
    rfl rfl).1 (by decide)

/-! ### The destination mkdir step (claim C9) -/

/-- Splitting a character list at `/` separators. -/
def splitSlash (l : List Char) : List (List Char) :=
  l.foldr
    (fun c acc =>
      if c = '/' then [] :: acc
      else
        match acc with
        | s :: ss => (c :: s) :: ss
        | [] => [[c]])
    [[]]

/-- Stated from the claim's words: a destination string denoting the
current directory — a nonempty relative path all of whose `/`-separated
segments are empty or `.` (so `.`, `./`, `./.`, ... ). -/
def denotesCurrentDir (s : String) : Bool :=
  !(s.data.isEmpty) && !(s.data.head? == some '/') &&
    ((splitSlash s.data).filter (fun seg => !(seg.isEmpty) && !(seg == ['.']))).isEmpty

/-- C9 counterexample: the destination `./` denotes the current directory,
yet the scaffold trace performs the destination-directory creation step
(the code only compares the destination string with the literal `.`). -/
theorem dest_mkdir_on_dot_slash :
    denotesCurrentDir "./" = true ∧
      Ev.mkdirE "./" "." ∈ createAppTrace "n" "./" tpl0 := by
  constructor
  · decide
  · rw [createAppTrace]
    simp

/-- C9 (amended): the destination-directory creation step is performed
exactly when the destination string is not the literal `"."` — and when it
is performed, it is the first effect of the scaffold.  Destinations that
denote the current directory by another spelling (such as `"./"`) still
perform the step. -/
theorem dest_mkdir_iff (name dir : String) (tpl : Tpl) :
    (Ev.mkdirE dir "." ∈ createAppTrace name dir tpl ↔ dir ≠ ".") ∧
      (dir ≠ "." → (createAppTrace name dir tpl).head? = some (Ev.mkdirE dir ".")) := by
  constructor
  · constructor
    · intro hmem hdot
      subst hdot
      rw [createAppTrace] at hmem
      simp only [List.mem_append, List.mem_map, List.mem_singleton, List.mem_filter] at hmem
      rcases hmem with ((((((((((h | h) | h) | h) | h) | h) | h) | h) | h) | h) | h)
      · simp at h
      all_goals exact absurd h (by simp)
    · intro hne
      rw [createAppTrace, if_pos hne]
      simp
  · intro hne
    rw [createAppTrace, if_pos hne]
    simp

/-- C9 amended-theorem witness at concrete inputs: for destination `d` the
step is performed first; for destination `.` it is absent. -/
theorem dest_mkdir_iff_witness :
    (createAppTrace "n" "d" tpl0).head? = some (Ev.mkdirE "d" ".") ∧
      Ev.mkdirE "." "." ∉ createAppTrace "n" "." tpl0 :=
  ⟨(dest_mkdir_iff "n" "d" tpl0).2 (by decide),
    fun hmem => absurd ((dest_mkdir_iff "n" "." tpl0).1.mp hmem) (by simp)⟩

/-! ### Filesystem state and re-run idempotence (claim C8) -/

/-- Filesystem state touched by the generator: which directories exist, and
each file path's content.  Both maps are extensional. -/
structure FS where
  dirs : String → Bool
  files : String → Option String

/-- Modelled from the spec (§4.2): the set of directories a
`mkdirp.sync(loc)` call guarantees to exist afterwards — the target and
every ancestor at a `/` boundary.  The call never fails on directories
that already exist. -/
def mkdirpCovers (loc d : String) : Bool :=
  d == loc || (!(d.data.isEmpty) && (d ++ "/").data.isPrefixOf loc.data)

/-- Applying one effect to the filesystem: `mkdirp` makes the covered
directories exist (idempotently), a write sets the file's content
(creating or truncating), prompt and exit do not touch the filesystem. -/
def applyEv (fs : FS) : Ev → FS
  | Ev.mkdirE base rel =>
    { fs with dirs := fun d => mkdirpCovers (joinPath base rel) d || fs.dirs d }
  | Ev.writeE p c => { fs with files := fun p2 => if p2 = p then some c else fs.files p2 }
  | Ev.promptE => fs
  | Ev.exitE _ => fs

/-- Run an effect trace over a filesystem state. -/
def runTrace (fs : FS) (tr : List Ev) : FS :=
  tr.foldl applyEv fs

/-- The content the trace leaves at path `p`, when it writes `p` at all
(later writes shadow earlier ones). -/
def lastWrite (p : String) : List Ev → Option String
  | [] => none
  | Ev.writeE p2 c :: tr => (lastWrite p tr).or (if p = p2 then some c else none)
  | Ev.mkdirE _ _ :: tr => lastWrite p tr
  | Ev.promptE :: tr => lastWrite p tr
  | Ev.exitE _ :: tr => lastWrite p tr

/-- Whether the trace makes directory `d` exist. -/
def anyMkdir (d : String) : List Ev → Bool
  | [] => false
  | Ev.mkdirE base rel :: tr => mkdirpCovers (joinPath base rel) d || anyMkdir d tr
  | Ev.writeE _ _ :: tr => anyMkdir d tr
  | Ev.promptE :: tr => anyMkdir d tr
  | Ev.exitE _ :: tr => anyMkdir d tr

theorem files_runTrace (p : String) :
    ∀ (tr : List Ev) (fs : FS),
      (runTrace fs tr).files p = (lastWrite p tr).or (fs.files p)
  | [], fs => by simp [runTrace, lastWrite]
  | e :: tr, fs => by
    have step : runTrace fs (e :: tr) = runTrace (applyEv fs e) tr := rfl
    rw [step, files_runTrace p tr (applyEv fs e)]
    cases e with
    | writeE p2 c =>
      rw [lastWrite, Option.or_assoc]
      congr 1
      show (if p = p2 then some c else fs.files p) =
        (if p = p2 then some c else none).or (fs.files p)
      by_cases hp : p = p2
      · rw [if_pos hp, if_pos hp, Option.or_some]
      · rw [if_neg hp, if_neg hp, Option.none_or]
    | mkdirE base rel => rw [lastWrite]; rfl
    | promptE => rw [lastWrite]; rfl
    | exitE code => rw [lastWrite]; rfl

theorem dirs_runTrace (d : String) :
    ∀ (tr : List Ev) (fs : FS),
      (runTrace fs tr).dirs d = (anyMkdir d tr || fs.dirs d)
  | [], fs => by simp [runTrace, anyMkdir]
  | e :: tr, fs => by
    have step : runTrace fs (e :: tr) = runTrace (applyEv fs e) tr := rfl
    rw [step, dirs_runTrace d tr (applyEv fs e)]
    cases e with
    | mkdirE base rel =>
      rw [anyMkdir]
      show (anyMkdir d tr || (mkdirpCovers (joinPath base rel) d || fs.dirs d)) = _
      cases anyMkdir d tr <;> cases mkdirpCovers (joinPath base rel) d <;> simp
    | writeE p2 c => rw [anyMkdir]; rfl
    | promptE => rw [anyMkdir]; rfl
    | exitE code => rw [anyMkdir]; rfl

/-- Replaying any effect trace over the state it produced changes nothing:
every mkdir finds its directories already present and every write rewrites
the content the first run left last. -/
theorem runTrace_idempotent (fs : FS) (tr : List Ev) :
    runTrace (runTrace fs tr) tr = runTrace fs tr := by
  have hf : ∀ p, (runTrace (runTrace fs tr) tr).files p = (runTrace fs tr).files p := by
    intro p
    rw [files_runTrace, files_runTrace]
    cases lastWrite p tr with
    | none => rw [Option.none_or, Option.none_or]
    | some c => rw [Option.or_some, Option.or_some]
  have hd : ∀ d, (runTrace (runTrace fs tr) tr).dirs d = (runTrace fs tr).dirs d := by
    intro d
    rw [dirs_runTrace, dirs_runTrace]
    cases anyMkdir d tr with
    | false => rw [Bool.false_or, Bool.false_or]
    | true => rw [Bool.true_or, Bool.true_or]
  cases hr : runTrace (runTrace fs tr) tr with
  | mk dirs2 files2 =>
    cases hr2 : runTrace fs tr with
    | mk dirs1 files1 =>
      have hdirs : dirs2 = dirs1 := by
        funext d
        have := hd d
        rw [hr, hr2] at this
        exact this
      have hfiles : files2 = files1 := by
        funext p
        have := hf p
        rw [hr, hr2] at this
        exact this
      rw [hdirs, hfiles]

/-- C8: with the force flag, scaffolding succeeds for every destination
listing (both runs produce an effect trace, never an error — in
particular, directory creation never raises on already-existing
directories by the mkdirp semantics of the model); the effect trace is a
pure function of the inputs, so a re-run with identical inputs emits
byte-identical write events; and replaying the scaffold trace over the
filesystem state of the first run leaves the state unchanged. -/
theorem force_rerun_idempotent (files1 files2 : List String)
    (answer cwd dest : String) (tpl : Tpl) (fs : FS) :
    (∃ tr, mainTrace (.ok files1) true answer cwd dest tpl = .ok tr) ∧
      mainTrace (.ok files2) true answer cwd dest tpl =
        mainTrace (.ok files1) true answer cwd dest tpl ∧
      runTrace (runTrace fs (createAppTrace (appNameOf cwd dest) dest tpl))
          (createAppTrace (appNameOf cwd dest) dest tpl) =
        runTrace fs (createAppTrace (appNameOf cwd dest) dest tpl) := by
  refine ⟨⟨createAppTrace (appNameOf cwd dest) dest tpl ++ [Ev.exitE 0], ?_⟩, ?_, ?_⟩
  · rw [mainTrace]
    simp [emptyDirectory]
  · rw [mainTrace, mainTrace]
    simp [emptyDirectory]
  · exact runTrace_idempotent fs _

end NSC
